import Mathlib

/-!
Verification of the swift-extracter scanner (SwiftScanner.js and its legacy
duplicate) against its natural-language specification.  The JavaScript
functions are shallowly embedded as executable Lean definitions; strings are
Lean `String`s, JS objects with insertion-ordered keys are association lists,
and JS arrays are lists.
-/

namespace SwiftExtracter

/-- Whether the character list `l` starts with the pattern `pat`. -/
def startsWithChars : List Char → List Char → Bool
  | [], _ => true
  | _ :: _, [] => false
  | p :: ps, c :: cs => p == c && startsWithChars ps cs

/-- Whether the pattern `pat` occurs contiguously somewhere in `l`. -/
def containsChars (pat : List Char) : List Char → Bool
  | [] => startsWithChars pat []
  | c :: cs => startsWithChars pat (c :: cs) || containsChars pat cs

/-- JS `String.prototype.includes`: `strContains s pat` is true iff `pat`
occurs as a contiguous substring of `s`. -/
def strContains (s pat : String) : Bool :=
  containsChars pat.data s.data

/-- JS `name.split('(')[0]`: the prefix of `s` before the first `'('`
(the whole string when no parenthesis occurs). -/
def beforeParen (s : String) : String :=
  ⟨s.data.takeWhile (fun c => c != '(')⟩

/-- JS `String.prototype.trim`: drop whitespace from both ends (the
whitespace class is modelled by `Char.isWhitespace`). -/
def trimStr (s : String) : String :=
  ⟨((s.data.dropWhile Char.isWhitespace).reverse.dropWhile Char.isWhitespace).reverse⟩

/-- The base name used by the matcher in `processComponents`:
`name.split('(')[0].trim()`. -/
def baseName (s : String) : String :=
  trimStr (beforeParen s)

/-- A catalog entry as returned by the completion oracle
(an element of `componentsDataset[moduleName]`). -/
structure CatalogEntry where
  name : String
  kind : String
  moduleName : String
  docBrief : Option String
  deriving Repr, DecidableEq

/-- A candidate structural component of one file (a node kept by
`extractComponentsFromStructure`): `key.name`, `key.kind`, `key.offset`. -/
structure Candidate where
  name : String
  kind : String
  offset : Nat
  deriving Repr, DecidableEq

/-- The match test of `processComponents` (SwiftScanner.js, lines 644-654):
base names are compared after `split('(')[0].trim()`, and the kinds must
either be function-vs-expression compatible or exactly equal. -/
def entryMatchesCandidate (e : CatalogEntry) (c : Candidate) : Bool :=
  baseName e.name == baseName c.name &&
    ((strContains e.kind "function" && strContains c.kind "expr") ||
      e.kind == c.kind)

/-- The match rule exactly as the claim words it: base names are the raw
substrings before the first parenthesis (no trimming). -/
def claimMatchRule (e : CatalogEntry) (c : Candidate) : Bool :=
  beforeParen e.name == beforeParen c.name &&
    ((strContains e.kind "function" && strContains c.kind "expr") ||
      e.kind == c.kind)

/-- Backward scan of `findLineAndColumn` for the start of the line containing
`offset`: decrease `lineStart` while the previous character is not a
newline. -/
def lineStartOf (cs : List Char) : Nat → Nat
  | 0 => 0
  | j + 1 =>
    match cs.get? j with
    | some c => if c = '\n' then j + 1 else lineStartOf cs j
    | none => lineStartOf cs j

/-- Model of `findLineAndColumn` (SwiftScanner.js, lines 668-702) on the content of
the file: returns `(line, column)` with `column = offset - lineStart + 1`
and `line = 1 +` the number of newlines strictly before `lineStart`. -/
def findLineAndColumn (content : String) (offset : Nat) : Nat × Nat :=
  let cs := content.data
  let lineStart := lineStartOf cs offset
  let column := offset - lineStart + 1
  let line := 1 + (cs.take lineStart).countP (fun c => c = '\n')
  (line, column)

/-- JS `String.prototype.replace` with a string pattern: replace only the
first occurrence of `pat` by `repl`. -/
def replaceFirstChars (pat repl : List Char) : List Char → List Char
  | [] => if startsWithChars pat [] then repl else []
  | c :: cs =>
    if startsWithChars pat (c :: cs) then repl ++ (c :: cs).drop pat.length
    else c :: replaceFirstChars pat repl cs

/-- String version of `replaceFirstChars`. -/
def jsReplaceFirst (s pat repl : String) : String :=
  ⟨replaceFirstChars pat.data repl.data s.data⟩

/-- JS `s.toLowerCase()` restricted to the alphabet that appears in module
names (modelled by `Char.toLower`). -/
def lowerStr (s : String) : String :=
  ⟨s.data.map Char.toLower⟩

/-- A resolved module of the build-graph topology (an element of
`projectModulesList` as pushed by `getDebugYaml` in SwiftScanner.js). -/
structure Module where
  name : String
  path : String
  originalPath : String
  isThirdParty : Bool
  deriving Repr, DecidableEq

/-- The `isThirdParty` method of SwiftScanner.js: find the module by name
in `projectModulesList` and return its flag, `false` when absent. -/
def isThirdPartyOf (mods : List Module) (moduleName : String) : Bool :=
  match mods.find? (fun m => m.name == moduleName) with
  | some m => m.isThirdParty
  | none => false

/-- The `getDesignSystems` method: all design-system module names whose
lowercase form equals the lowercase module name. -/
def getDesignSystems (designSystemModules : List String) (moduleName : String) : List String :=
  designSystemModules.filter (fun d => lowerStr d == lowerStr moduleName)

/-- A recorded source location, `\x7bline, column, offset\x7d`. -/
structure Loc where
  line : Nat
  column : Nat
  offset : Nat
  deriving Repr, DecidableEq

/-- One `ResolvedMetadata` record as built by `extractMetadata`.  JS objects
used as insertion-ordered maps (`filewiseOccurences`, `filewiseLocation`)
are association lists. -/
structure Metadata where
  id : String
  name : String
  tags : List String
  overriddenComponents : List (String × String)
  designSystems : List String
  designDocs : Option String
  isSelfDeclared : Bool
  filewiseOccurences : List (String × Nat)
  totalOccurences : Nat
  stories : List String
  filewiseLocation : List (String × List Loc)
  type : String
  libraryName : String
  thirdParty : Bool
  deriving Repr, DecidableEq

/-- Lookup in a JS object modelled as an insertion-ordered association
list. -/
def assocGet {α : Type} (l : List (String × α)) (k : String) : Option α :=
  (l.find? (fun p => p.1 == k)).map (fun p => p.2)

/-- JS `obj[k] = v` on an insertion-ordered object: overwrite in place when
the key exists, append otherwise. -/
def assocSet {α : Type} : List (String × α) → String → α → List (String × α)
  | [], k, v => [(k, v)]
  | (k', v') :: rest, k, v =>
    if k' == k then (k, v) :: rest else (k', v') :: assocSet rest k v

/-- The candidate kind with the `source.lang.swift.` namespace removed:
`component["key.kind"].replace('source.lang.swift.', '')`. -/
def strippedKind (k : String) : String :=
  jsReplaceFirst k "source.lang.swift." ""

/-- The metadata key built by `extractMetadata`:
`existingComponent.moduleName + '/' + componentName + '/' + componentType`. -/
def metadataKey (moduleName candName candKind : String) : String :=
  moduleName ++ "/" ++ candName ++ "/" ++ strippedKind candKind

/-- The ambient scanner state that `extractMetadata` consults: the
design-system list, the module topology (for `isThirdParty`) and the file
contents read back by `findLineAndColumn`. -/
structure ScanEnv where
  designSystemModules : List String
  modules : List Module
  fileContent : String → String

/-- The fresh record created by `extractMetadata` when no record exists for
the key (counts zero, empty maps, provenance fields filled in). -/
def freshMetadata (env : ScanEnv) (c : Candidate) (e : CatalogEntry) : Metadata :=
  { id := metadataKey e.moduleName c.name c.kind
    name := c.name
    tags := []
    overriddenComponents := []
    designSystems := getDesignSystems env.designSystemModules e.moduleName
    designDocs := e.docBrief
    isSelfDeclared := !(isThirdPartyOf env.modules e.moduleName)
    filewiseOccurences := []
    totalOccurences := 0
    stories := []
    filewiseLocation := []
    type := strippedKind c.kind
    libraryName := e.moduleName
    thirdParty := isThirdPartyOf env.modules e.moduleName }

/-- The unconditional update step of `extractMetadata` (identical in both
source files): increment `totalOccurences`, increment
`filewiseOccurences[filePath]`, and overwrite `filewiseLocation[filePath]`
with the singleton list holding the location of this offset. -/
def updateMetadata (env : ScanEnv) (m : Metadata) (filePath : String) (c : Candidate) : Metadata :=
  let lc := findLineAndColumn (env.fileContent filePath) c.offset
  { m with
    totalOccurences := m.totalOccurences + 1
    filewiseOccurences :=
      assocSet m.filewiseOccurences filePath
        ((assocGet m.filewiseOccurences filePath).getD 0 + 1)
    filewiseLocation :=
      assocSet m.filewiseLocation filePath [⟨lc.1, lc.2, c.offset⟩] }

/-- The dictionary store of the legacy scanner (part_000):
`codebaseComponents` is a plain object keyed by the metadata id. -/
abbrev DictStore : Type := List (String × Metadata)

/-- The record `extractMetadata` starts from: the stored record for the key
when present, a fresh one otherwise. -/
def resolvedBase (env : ScanEnv) (store : DictStore) (c : Candidate) (e : CatalogEntry) : Metadata :=
  match assocGet store (metadataKey e.moduleName c.name c.kind) with
  | some m => m
  | none => freshMetadata env c e

/-- The legacy `extractMetadata` (part_000, lines 600-643): look up or
create the record for the key, apply the update step, and store it back
under the key. -/
def extractMetadataDict (env : ScanEnv) (store : DictStore) (c : Candidate)
    (e : CatalogEntry) (filePath : String) : DictStore × Metadata :=
  let mid := metadataKey e.moduleName c.name c.kind
  let m := updateMetadata env (resolvedBase env store c e) filePath c
  (assocSet store mid m, m)

/-- A JS array (only ever written through `push` by the scanner). -/
structure JsArray (α : Type) where
  elems : List α
  deriving Repr, DecidableEq

/-- JS `arr.push(x)`. -/
def jsArrayPush {α : Type} (a : JsArray α) (x : α) : JsArray α :=
  ⟨a.elems ++ [x]⟩

/-- Decimal value of a digit string. -/
def decValue : List Char → Nat :=
  List.foldl (fun n c => n * 10 + (c.toNat - '0'.toNat)) 0

/-- The array indices a string key can denote in JS: a key reads an array
element iff it is the canonical decimal numeral of an index. -/
def canonicalIndex (key : String) : Option Nat :=
  let cs := key.data
  if !cs.isEmpty && cs.all Char.isDigit && (cs == ['0'] || !(cs.head? == some '0')) then
    some (decValue cs)
  else none

/-- JS string-keyed read `arr[key]` on an array that only ever received
`push`es: an element when `key` is a canonical in-range index, `undefined`
(here `none`) otherwise. -/
def jsArrayGetStr {α : Type} (a : JsArray α) (key : String) : Option α :=
  match canonicalIndex key with
  | some n => a.elems.get? n
  | none => none

/-- The current `extractMetadata` (SwiftScanner.js, lines 713-755):
`codebaseComponents` is initialised to an array, looked up with the string
metadata key, and written back with `push`. -/
def extractMetadataArr (env : ScanEnv) (store : JsArray Metadata) (c : Candidate)
    (e : CatalogEntry) (filePath : String) : JsArray Metadata × Metadata :=
  let mid := metadataKey e.moduleName c.name c.kind
  let base :=
    match jsArrayGetStr store mid with
    | some m => m
    | none => freshMetadata env c e
  let m := updateMetadata env base filePath c
  (jsArrayPush store m, m)

/-- The per-module catalog: `componentsDataset` as an insertion-ordered
object mapping module name to its (append-only) entry list. -/
abbrev Dataset : Type := List (String × List CatalogEntry)

/-- First catalog entry of one module that matches the candidate, in entry
order (SwiftScanner.js `processComponents`: entries with a falsy `name` are
dropped during pre-processing, then the inner `for` loop stops at the first
entry passing `entryMatchesCandidate`). -/
def firstMatchInModule (entries : List CatalogEntry) (c : Candidate) : Option CatalogEntry :=
  (entries.filter (fun e => !e.name.isEmpty)).find? (fun e => entryMatchesCandidate e c)

/-- Mutable state of the current scanner while matching:
`codebaseComponents` (a JS array) and `projectComponents`. -/
structure StateJS where
  codebase : JsArray Metadata
  projectComponents : List Metadata
  deriving Repr, DecidableEq

/-- Processing of one candidate by `processComponents` in SwiftScanner.js
(lines 617-658): candidates whose trimmed base name is falsy are skipped;
then `moduleComponentsMap.forEach` visits every module in catalog insertion
order, and the `return` after a match only leaves that module's callback,
so each module with a matching entry contributes one `extractMetadata`
update. -/
def processCandidateJS (env : ScanEnv) (dataset : Dataset) (filePath : String)
    (st : StateJS) (c : Candidate) : StateJS :=
  if (baseName c.name).isEmpty then st
  else
    dataset.foldl
      (fun st mod =>
        match firstMatchInModule mod.2 c with
        | some e =>
          let r := extractMetadataArr env st.codebase c e filePath
          { codebase := r.1, projectComponents := st.projectComponents ++ [r.2] }
        | none => st)
      st

/-- Model of `processComponents` of SwiftScanner.js over the candidate list of one
file. -/
def processComponentsJS (env : ScanEnv) (dataset : Dataset) (filePath : String)
    (st : StateJS) (components : List Candidate) : StateJS :=
  components.foldl (processCandidateJS env dataset filePath) st

/-- Mutable state of the legacy scanner (part_000): the dictionary store
and `projectComponents`. -/
structure StateLegacy where
  codebase : DictStore
  projectComponents : List Metadata

/-- First matching entry of one module in the legacy `processComponents`
(part_000, lines 512-546): both the entry name and the full candidate name
must be truthy, then the same base-name/kind rule applies. -/
def firstMatchInModuleLegacy (entries : List CatalogEntry) (c : Candidate) : Option CatalogEntry :=
  entries.find? (fun e => !e.name.isEmpty && !c.name.isEmpty && entryMatchesCandidate e c)

/-- Scan of the whole catalog in module insertion order, stopping at the
first module holding a match (the legacy loop `break`s out of the module
loop once `existingComponent` is found). -/
def legacyFindMatch (c : Candidate) : Dataset → Option CatalogEntry
  | [] => none
  | mod :: rest =>
    match firstMatchInModuleLegacy mod.2 c with
    | some e => some e
    | none => legacyFindMatch c rest

/-- Processing of one candidate by the legacy `processComponents`: at most
one `extractMetadata` update, for the first satisfying entry over all
modules. -/
def processCandidateLegacy (env : ScanEnv) (dataset : Dataset) (filePath : String)
    (st : StateLegacy) (c : Candidate) : StateLegacy :=
  match legacyFindMatch c dataset with
  | some e =>
    let r := extractMetadataDict env st.codebase c e filePath
    { codebase := r.1, projectComponents := st.projectComponents ++ [r.2] }
  | none => st

/-- Legacy `processComponents` over the candidate list of one file. -/
def processComponentsLegacy (env : ScanEnv) (dataset : Dataset) (filePath : String)
    (st : StateLegacy) (components : List Candidate) : StateLegacy :=
  components.foldl (processCandidateLegacy env dataset filePath) st

/-- Whether `s` starts with `pat` (JS `String.prototype.startsWith`). -/
def strStartsWith (s pat : String) : Bool :=
  startsWithChars pat.data s.data

/-- Whether `s` ends with `pat` (JS `String.prototype.endsWith`). -/
def strEndsWith (s pat : String) : Bool :=
  startsWithChars pat.data.reverse s.data.reverse

/-- A node of the structural oracle's tree: `key.name`, `key.kind`,
`key.offset` and the optional `key.substructure` child list (absent is the
empty list). -/
inductive SNode : Type where
  | mk (name : String) (kind : String) (offset : Nat) (substructure : List SNode)

/-- Kind tag of a structural node. -/
def SNode.kind : SNode → String
  | .mk _ k _ _ => k

/-- Child list of a structural node. -/
def SNode.substructure : SNode → List SNode
  | .mk _ _ _ subs => subs

/-- The retention test of `extractComponentsFromStructure`: the kind tag
starts with the declaration, expression or structure category. -/
def retainedKind (k : String) : Bool :=
  strStartsWith k "source.lang.swift.decl" ||
    strStartsWith k "source.lang.swift.expr" ||
    strStartsWith k "source.lang.swift.structure"

/-- The flattening loop of `extractComponentsFromStructure` over a child
list: push the child itself when its kind is retained, then push everything
extracted recursively from its substructure, then continue with the
remaining siblings. -/
def extractList : List SNode → List SNode
  | [] => []
  | SNode.mk nm k off subs :: rest =>
    (if retainedKind k then [SNode.mk nm k off subs] else []) ++
      extractList subs ++ extractList rest

/-- Model of `extractComponentsFromStructure` (SwiftScanner.js, lines 548-574): the
root object itself is never pushed, only (recursively) the members of
substructure lists. -/
def extractComponentsFromStructure (root : SNode) : List SNode :=
  extractList root.substructure

/-- Pre-order listing of all strict descendants of the nodes of a forest:
each node before its own substructure, siblings afterwards. -/
def preorderList : List SNode → List SNode
  | [] => []
  | SNode.mk nm k off subs :: rest =>
    SNode.mk nm k off subs :: (preorderList subs ++ preorderList rest)

/-- Outcome of a shell invocation (the `runner` stands for `execSync`): a
captured stdout or a thrown error carrying a message. -/
abbrev Runner : Type := String → Except String String

/-- Model of `executeCommand` (SwiftScanner.js, lines 193-206): on success return
stdout, on failure catch the exception and return `error.message.trim()`
as if it were normal output. -/
def executeCommand (runner : Runner) (command : String) : String :=
  match runner command with
  | .ok out => out
  | .error msg => trimStr msg

/-- The sourcekitten command line built by `getStructureFromFile`. -/
def structureCommand (filePath : String) : String :=
  "sourcekitten structure --file \"" ++ filePath ++ "\""

/-- Model of `getStructureFromFile` (SwiftScanner.js, lines 600-609): run the
structural oracle through `executeCommand` and feed whatever string comes
back to `JSON.parse` (modelled by the abstract `parse`); a parse failure is
rethrown with the `Error extracting public components` prefix. -/
def getStructureFromFile (runner : Runner) (parse : String → Except String SNode)
    (filePath : String) : Except String SNode :=
  let stdout := executeCommand runner (structureCommand filePath)
  match parse stdout with
  | .ok j => .ok j
  | .error e => .error ("Error extracting public components: " ++ e)

/-- The `validPath` test of SwiftScanner.js (lines 288-297): a directory
path is accepted iff it occurs as a substring of some known module path
(`module.path.includes(directoryPath)`). -/
def validPath (mods : List Module) (directoryPath : String) : Bool :=
  mods.any (fun m => strContains m.path directoryPath)

/-- A filesystem entry as seen by the walker: a plain file or a directory
with named children in listing order. -/
inductive FsEntry : Type where
  | file (name : String)
  | dir (name : String) (children : List FsEntry)

/-- Name of a filesystem entry. -/
def FsEntry.name : FsEntry → String
  | .file n => n
  | .dir n _ => n

/-- Model of the JS path join for the simple relative names the walker produces. -/
def joinPath (a b : String) : String := a ++ "/" ++ b

/-- Observable outcome of a walk: the files dispatched to the per-file
pipeline (in order), and each rejected directory path together with the
module paths printed as guidance. -/
structure WalkResult where
  scanned : List String
  rejections : List (String × List String)
  deriving Repr, DecidableEq

/-- Concatenation of walk outcomes in traversal order. -/
def combineWalk (r1 r2 : WalkResult) : WalkResult :=
  ⟨r1.scanned ++ r2.scanned, r1.rejections ++ r2.rejections⟩

mutual

/-- Model of `scanFilesRecursively` (SwiftScanner.js, lines 240-281) at one path:
a directory failing `validPath` is rejected with the module paths as
guidance and nothing below it is visited; a valid directory is listed and
its children visited in order; a file is dispatched iff it ends in
`.swift`. -/
def scanEntry (mods : List Module) (excluded : List String) :
    String → FsEntry → WalkResult
  | p, .file _ => if strEndsWith p ".swift" then ⟨[p], []⟩ else ⟨[], []⟩
  | p, .dir _ children =>
    if validPath mods p then scanChildren mods excluded p children
    else ⟨[], [(p, mods.map (fun m => m.path))]⟩

/-- The directory loop of `scanFilesRecursively`: children whose name is in
the exclusion set are skipped (before the recursive call), the others are
scanned under the joined path. -/
def scanChildren (mods : List Module) (excluded : List String) :
    String → List FsEntry → WalkResult
  | _, [] => ⟨[], []⟩
  | p, c :: cs =>
    let head :=
      if excluded.contains c.name then (⟨[], []⟩ : WalkResult)
      else scanEntry mods excluded (joinPath p c.name) c
    combineWalk head (scanChildren mods excluded p cs)

end

/-- The CLI loop of ScannerCLI.js: each root path passed to `scan` is
walked in turn with the same scanner state. -/
def scanRoots (mods : List Module) (excluded : List String)
    (roots : List (String × FsEntry)) : WalkResult :=
  roots.foldl (fun acc r => combineWalk acc (scanEntry mods excluded r.1 r.2)) ⟨[], []⟩

/-- The validity condition exactly as the claim words it: the scanned path
lies under a known module path or contains one (as directory paths). -/
def specUnderOrContains (p m : String) : Bool :=
  p == m || strStartsWith p (m ++ "/") || strStartsWith m (p ++ "/")

/-- One entry of the `commands` mapping of the build manifest: its key and
its `inputs` list. -/
structure ManifestEntry where
  key : String
  inputs : List String
  deriving Repr, DecidableEq

/-- Index of the last occurrence of a character, `-1` when absent (JS
`String.prototype.lastIndexOf`). -/
def lastIdxOfChars : List Char → Char → Int
  | [], _ => -1
  | c :: cs, t =>
    let r := lastIdxOfChars cs t
    if r ≥ 0 then r + 1 else if c == t then 0 else -1

/-- JS `s.lastIndexOf(c)`. -/
def jsLastIndexOf (s : String) (c : Char) : Int :=
  lastIdxOfChars s.data c

/-- JS `s.substring(a, b)`: both indices are clamped into `[0, length]` and
swapped when out of order. -/
def jsSubstring (s : String) (a b : Int) : String :=
  let n : Int := s.data.length
  let a' := min (max a 0) n
  let b' := min (max b 0) n
  let lo := min a' b'
  let hi := max a' b'
  ⟨(s.data.take hi.toNat).drop lo.toNat⟩

/-- Index of the first occurrence of the pattern `pat`, if any. -/
def firstOccAt (pat : List Char) : List Char → Option Nat
  | [] => if startsWithChars pat [] then some 0 else none
  | c :: cs =>
    if startsWithChars pat (c :: cs) then some 0
    else (firstOccAt pat cs).map (fun i => i + 1)

/-- JS `s.split(pat)[0]`: the text before the first occurrence of `pat`
(all of `s` when `pat` does not occur). -/
def jsSplitHead (s pat : String) : String :=
  match firstOccAt pat.data s.data with
  | some i => ⟨s.data.take i⟩
  | none => s

/-- JS `s.split(pat)[1]` when `pat` occurs in `s`: the text between the
first occurrence and the next one (or the end). -/
def jsSplitSecond (s pat : String) : String :=
  match firstOccAt pat.data s.data with
  | some i => jsSplitHead ⟨s.data.drop (i + pat.data.length)⟩ pat
  | none => ""

/-- Split on the path separator (JS `s.split('/')`). -/
def splitOnSlash : List Char → List (List Char)
  | [] => [[]]
  | c :: cs =>
    if c = '/' then [] :: splitOnSlash cs
    else
      match splitOnSlash cs with
      | [] => [[c]]
      | p :: ps => (c :: p) :: ps

/-- JS `s.split('/'); pop(); join('/')`: drop the last path segment. -/
def dropLastSegment (s : String) : String :=
  ⟨List.intercalate ['/'] ((splitOnSlash s.data).dropLast)⟩

/-- The module record pushed by `getDebugYaml` (SwiftScanner.js, lines
99-118) for one kept target entry: the name strips the `C.` lead and the
suffix from the last `-`; the path is the checkout subdirectory for
third-party inputs and the owning directory otherwise. -/
def moduleOfEntry (e : ManifestEntry) : Module :=
  let originalPath := e.inputs.headD ""
  let path :=
    if strContains originalPath ".build/checkouts" then
      jsSplitHead originalPath ".build/checkouts" ++ ".build/checkouts" ++
        dropLastSegment (jsSplitSecond originalPath ".build/checkouts")
    else dropLastSegment originalPath
  { name := jsSubstring e.key 2 (jsLastIndexOf e.key '-')
    path := path
    originalPath := originalPath
    isThirdParty := strContains originalPath ".build/checkouts" }

/-- The target filter of `getDebugYaml`: the first input lies in the
dependency-checkout area, or not in the build area at all. -/
def keepEntry (e : ManifestEntry) : Bool :=
  strContains (e.inputs.headD "") ".build/checkouts" ||
    !(strContains (e.inputs.headD "") ".build")

/-- Model of `getDebugYaml` on the parsed manifest: accessing
`commands.PackageStructure.inputs` throws (rejecting the whole parse) when
that key is absent, as does `inputs[0]` on a `C.`-keyed entry with no
inputs; otherwise the `C.`-prefixed keys are filtered by `keepEntry` and
mapped to modules in key order. -/
def getDebugYaml (commands : List ManifestEntry) : Option (List Module) :=
  if (commands.find? (fun e => e.key == "PackageStructure")).isNone then none
  else
    let moduleKeys := commands.filter (fun e => strStartsWith e.key "C.")
    if moduleKeys.any (fun e => e.inputs.isEmpty) then none
    else some ((moduleKeys.filter keepEntry).map moduleOfEntry)

/-- A manifest is well formed when `commands` has the `PackageStructure`
entry and every compilable (`C.`-prefixed) target has at least one input
and a key of the shape `C.<module>-<disambiguator>` with a dash-free
disambiguator. -/
def wellFormedManifest (commands : List ManifestEntry) : Prop :=
  (∃ e ∈ commands, e.key = "PackageStructure") ∧
    ∀ e ∈ commands, strStartsWith e.key "C." = true →
      e.inputs ≠ [] ∧ ∃ nm d : String, e.key = "C." ++ nm ++ "-" ++ d ∧ '-' ∉ d.data

/-- Sum of the values of a JS object used as a counter map. -/
def sumSnd (l : List (String × Nat)) : Nat :=
  (l.map (fun p => p.2)).sum

/-- One resolved (candidate, catalog entry) pair dispatched to the
aggregator for a file. -/
structure ResolveEvent where
  cand : Candidate
  entry : CatalogEntry
  filePath : String

/-- A run of the legacy aggregator over a sequence of resolutions, starting
from the empty dictionary store. -/
def runDict (env : ScanEnv) (evs : List ResolveEvent) : DictStore :=
  evs.foldl (fun st ev => (extractMetadataDict env st ev.cand ev.entry ev.filePath).1) []

/-- A run of the current aggregator over a sequence of resolutions,
starting from the empty array store. -/
def runArr (env : ScanEnv) (evs : List ResolveEvent) : JsArray Metadata :=
  evs.foldl (fun st ev => (extractMetadataArr env st ev.cand ev.entry ev.filePath).1) ⟨[]⟩

end SwiftExtracter

namespace SwiftExtracter

/-- Helper: the claimed match rule differs from the implemented one only in
base-name trimming, so the two agree whenever trimming is immaterial; this
equivalence is the amended match characterisation. -/
theorem entryMatchesCandidate_iff (e : CatalogEntry) (c : Candidate) :
    entryMatchesCandidate e c = true ↔
      (baseName e.name = baseName c.name ∧
        ((strContains e.kind "function" = true ∧ strContains c.kind "expr" = true) ∨
          e.kind = c.kind)) := by
  simp [entryMatchesCandidate]

/-- C3 counterexample: the implemented matcher trims base names
(`split('(')[0].trim()`), so the entry named `"foo (bar:)"` matches the
candidate named `"foo"` although their raw substrings before the first
parenthesis differ; hence "match iff raw base names equal and kinds
compatible" is false as stated. -/
theorem c3_match_rule_counterexample :
    entryMatchesCandidate ⟨"foo (bar:)", "k", "M", none⟩ ⟨"foo", "k", 0⟩ = true ∧
      claimMatchRule ⟨"foo (bar:)", "k", "M", none⟩ ⟨"foo", "k", 0⟩ = false := by
  decide

/-- C3 (amended): the matcher declares a match iff the trimmed base names
(substring before the first parenthesis, surrounding whitespace removed)
are equal and either the entry kind contains `function` while the candidate
kind contains `expr`, or the kinds are exactly equal; in particular the
function-declared/call-referenced example matches, the identical-kind
example matches, and the candidate named `food` never matches. -/
theorem c3_match_rule :
    (∀ (e : CatalogEntry) (c : Candidate),
      entryMatchesCandidate e c = true ↔
        (baseName e.name = baseName c.name ∧
          ((strContains e.kind "function" = true ∧ strContains c.kind "expr" = true) ∨
            e.kind = c.kind))) ∧
    entryMatchesCandidate ⟨"foo(bar:)", "source.lang.swift.decl.function.free", "M", none⟩
      ⟨"foo(bar:)", "source.lang.swift.expr.call", 7⟩ = true ∧
    entryMatchesCandidate ⟨"foo(bar:)", "source.lang.swift.decl.function.free", "M", none⟩
      ⟨"foo(bar:)", "source.lang.swift.decl.function.free", 7⟩ = true ∧
    entryMatchesCandidate ⟨"foo(bar:)", "source.lang.swift.decl.function.free", "M", none⟩
      ⟨"food", "source.lang.swift.expr.call", 7⟩ = false := by
  exact ⟨entryMatchesCandidate_iff, by decide, by decide, by decide⟩

/-- C4 counterexample: in `"a\nbb\nccc"` the character at byte offset 4 is
the second newline, and the implemented backward scan yields line 2,
column 3 there, not line 2, column 2. -/
theorem c4_offset_counterexample :
    findLineAndColumn "a\nbb\nccc" 4 = (2, 3) ∧
      findLineAndColumn "a\nbb\nccc" 4 ≠ (2, 2) := by
  decide

/-- C4 (amended): for content `"a\nbb\nccc"` and byte offset 3 (the second
`b`), the offset-to-location computation yields line 2, column 2. -/
theorem c4_offset_to_location :
    findLineAndColumn "a\nbb\nccc" 3 = (2, 2) := by
  decide

end SwiftExtracter

namespace SwiftExtracter

/-- C1 (code bug): `codebaseComponents` is initialised to an array and only
ever written with `push`, so the string-keyed lookup
`codebaseComponents[metadataId]` never finds an earlier record; scanning
the same file twice with a correct catalog leaves two records with the
same metadata key, each with `totalOccurences` 1, instead of one record
with `totalOccurences` 2 and unique keys. -/
theorem c1_duplicate_keys_on_rescan :
    ((processComponentsJS ⟨[], [], fun _ => "f()\n"⟩
        [("A", [⟨"f", "source.lang.swift.decl.function.free", "A", none⟩])] "/a.swift"
        (processComponentsJS ⟨[], [], fun _ => "f()\n"⟩
          [("A", [⟨"f", "source.lang.swift.decl.function.free", "A", none⟩])] "/a.swift"
          ⟨⟨[]⟩, []⟩ [⟨"f", "source.lang.swift.expr.call", 0⟩])
        [⟨"f", "source.lang.swift.expr.call", 0⟩]).codebase.elems.map
      (fun m => (m.id, m.totalOccurences))) =
      [("A/f/expr.call", 1), ("A/f/expr.call", 1)] := by
  decide

/-- C2 (code bug): in SwiftScanner.js the `return` inside
`moduleComponentsMap.forEach` only leaves the current module's callback, so
a candidate matching entries in two modules produces one metadata update
per module; the legacy `processComponents` (part_000) `break`s across
modules and produces exactly one. -/
theorem c2_one_update_per_matching_module :
    ((processComponentsJS ⟨[], [], fun _ => "f()\n"⟩
        [("A", [⟨"f", "source.lang.swift.decl.function.free", "A", none⟩]),
         ("B", [⟨"f", "source.lang.swift.decl.function.free", "B", none⟩])] "/a.swift"
        ⟨⟨[]⟩, []⟩ [⟨"f", "source.lang.swift.expr.call", 0⟩]).projectComponents.map
      (fun m => m.id)) = ["A/f/expr.call", "B/f/expr.call"] ∧
    ((processComponentsLegacy ⟨[], [], fun _ => "f()\n"⟩
        [("A", [⟨"f", "source.lang.swift.decl.function.free", "A", none⟩]),
         ("B", [⟨"f", "source.lang.swift.decl.function.free", "B", none⟩])] "/a.swift"
        ⟨[], []⟩ [⟨"f", "source.lang.swift.expr.call", 0⟩]).projectComponents.map
      (fun m => m.id)) = ["A/f/expr.call"] := by
  exact ⟨by decide, by decide⟩

/-- C10: `executeCommand` catches every execution failure and returns the
trimmed error message as if it were the command's stdout, so a failed
structural-oracle invocation reaches `getStructureFromFile` as plain text
that is handed to the JSON parser instead of surfacing as a distinct
oracle-invocation error. -/
theorem c10_failure_text_as_output :
    ∀ (runner : Runner) (parse : String → Except String SNode) (filePath msg : String),
      runner (structureCommand filePath) = .error msg →
      executeCommand runner (structureCommand filePath) = trimStr msg ∧
      getStructureFromFile runner parse filePath =
        (match parse (trimStr msg) with
         | .ok j => .ok j
         | .error e => .error ("Error extracting public components: " ++ e)) := by
  intro runner parse filePath msg h
  constructor
  · simp [executeCommand, h]
  · simp [getStructureFromFile, executeCommand, h]

/-- Witness for C10 at a concrete always-failing runner and a parser that
rejects every input. -/
theorem c10_failure_text_as_output_witness :
    executeCommand (fun _ => .error " boom ") (structureCommand "a.swift") = trimStr " boom " ∧
    getStructureFromFile (fun _ => .error " boom ") (fun s => .error s) "a.swift" =
      .error ("Error extracting public components: " ++ trimStr " boom ") := by
  have h := c10_failure_text_as_output (fun _ => .error " boom ")
    (fun s => .error s) "a.swift" " boom " rfl
  exact ⟨h.1, h.2⟩

end SwiftExtracter

namespace SwiftExtracter

/-- Helper for C9: over any forest, the flattening loop returns exactly the
retained nodes of the pre-order descendant listing, in pre-order. -/
theorem extractList_eq_filter_preorder (l : List SNode) :
    extractList l = (preorderList l).filter (fun n => retainedKind n.kind) := by
  induction l using extractList.induct with
  | case1 => simp [extractList, preorderList]
  | case2 nm k off subs rest ih1 ih2 =>
    simp only [extractList, preorderList, List.filter_cons, List.filter_append,
      SNode.kind, ih1, ih2]
    cases h : retainedKind k <;> simp [h]

/-- C9: the structural flattening keeps a node iff its kind tag starts with
the declaration, expression or structure category, recurses into every
node's substructure whether or not the node is retained, and lists each
parent before its descendants — i.e. it equals the retained-kind filter of
the pre-order listing of all strict subnodes of the root. -/
theorem c9_flattening_is_preorder_filter (root : SNode) :
    extractComponentsFromStructure root =
      (preorderList root.substructure).filter (fun n => retainedKind n.kind) := by
  exact extractList_eq_filter_preorder root.substructure

end SwiftExtracter

namespace SwiftExtracter

/-- Helper: writing a key into a JS object makes a subsequent read of that
key return exactly the written value. -/
theorem assocGet_assocSet {α : Type} (l : List (String × α)) (k : String) (v : α) :
    assocGet (assocSet l k v) k = some v := by
  induction l with
  | nil => simp [assocSet, assocGet, List.find?]
  | cons hd tl ih =>
    obtain ⟨k', v'⟩ := hd
    by_cases h : k' = k
    · subst h
      simp [assocSet, assocGet, List.find?]
    · have hb : (k' == k) = false := by simpa using h
      simp only [assocSet, hb, if_false]
      simpa [assocGet, List.find?, hb] using ih

/-- C5: one aggregator update for a resolved match in file `fp` stores the
updated record under its key; that record's `filewiseLocation[fp]` holds
exactly one location — the one computed from the offset just recorded
(overwriting any earlier list) — while `totalOccurences` and
`filewiseOccurences[fp]` are each one more than on the record the update
started from. -/
theorem c5_location_overwritten_counts_accumulate
    (env : ScanEnv) (store : DictStore) (c : Candidate) (e : CatalogEntry) (fp : String) :
    assocGet (extractMetadataDict env store c e fp).1
        (metadataKey e.moduleName c.name c.kind) =
      some (extractMetadataDict env store c e fp).2 ∧
    assocGet (extractMetadataDict env store c e fp).2.filewiseLocation fp =
      some [⟨(findLineAndColumn (env.fileContent fp) c.offset).1,
            (findLineAndColumn (env.fileContent fp) c.offset).2, c.offset⟩] ∧
    (extractMetadataDict env store c e fp).2.totalOccurences =
      (resolvedBase env store c e).totalOccurences + 1 ∧
    assocGet (extractMetadataDict env store c e fp).2.filewiseOccurences fp =
      some ((assocGet (resolvedBase env store c e).filewiseOccurences fp).getD 0 + 1) := by
  refine ⟨?_, ?_, ?_, ?_⟩
  · exact assocGet_assocSet ..
  · simp [extractMetadataDict, updateMetadata, assocGet_assocSet]
  · simp [extractMetadataDict, updateMetadata]
  · simp [extractMetadataDict, updateMetadata, assocGet_assocSet]

end SwiftExtracter

namespace SwiftExtracter

/-- Helper: keyed write on a matching head overwrites in place. -/
theorem assocSet_cons_eq {α : Type} (k' : String) (v' : α) (tl : List (String × α))
    (k : String) (v : α) (h : (k' == k) = true) :
    assocSet ((k', v') :: tl) k v = (k, v) :: tl := by
  simp [assocSet, h]

/-- Helper: keyed write on a non-matching head keeps the head. -/
theorem assocSet_cons_ne {α : Type} (k' : String) (v' : α) (tl : List (String × α))
    (k : String) (v : α) (h : (k' == k) = false) :
    assocSet ((k', v') :: tl) k v = (k', v') :: assocSet tl k v := by
  simp [assocSet, h]

/-- Helper: keyed read on a matching head returns its value. -/
theorem assocGet_cons_eq {α : Type} (k' : String) (v' : α) (tl : List (String × α))
    (k : String) (h : (k' == k) = true) :
    assocGet ((k', v') :: tl) k = some v' := by
  simp [assocGet, List.find?_cons_of_pos, h]

/-- Helper: keyed read skips a non-matching head. -/
theorem assocGet_cons_ne {α : Type} (k' : String) (v' : α) (tl : List (String × α))
    (k : String) (h : (k' == k) = false) :
    assocGet ((k', v') :: tl) k = assocGet tl k := by
  simp only [assocGet]
  rw [List.find?_cons_of_neg]
  simpa using h

/-- Helper: incrementing one counter of a JS counter object raises the sum
of its values by exactly one. -/
theorem sumSnd_assocSet_incr (l : List (String × Nat)) (k : String) :
    sumSnd (assocSet l k ((assocGet l k).getD 0 + 1)) = sumSnd l + 1 := by
  induction l with
  | nil => simp [assocSet, assocGet, sumSnd]
  | cons hd tl ih =>
    obtain ⟨k', v'⟩ := hd
    by_cases h : k' = k
    · have hb : (k' == k) = true := beq_iff_eq.mpr h
      rw [assocGet_cons_eq k' v' tl k hb, assocSet_cons_eq k' v' tl k _ hb]
      simp [sumSnd]
      omega
    · have hb : (k' == k) = false := by simpa using h
      rw [assocGet_cons_ne k' v' tl k hb, assocSet_cons_ne k' v' tl k _ hb]
      simp only [sumSnd, List.map_cons, List.sum_cons] at ih ⊢
      omega

/-- Helper: every member of an object after a keyed write is either the
written pair or a member of the previous object. -/
theorem mem_assocSet {α : Type} {p : String × α} {l : List (String × α)}
    {k : String} {v : α} (h : p ∈ assocSet l k v) : p = (k, v) ∨ p ∈ l := by
  induction l with
  | nil => simpa [assocSet] using h
  | cons hd tl ih =>
    obtain ⟨k', v'⟩ := hd
    by_cases hk : k' = k
    · have hb : (k' == k) = true := beq_iff_eq.mpr hk
      rw [assocSet_cons_eq k' v' tl k v hb] at h
      rcases List.mem_cons.mp h with h | h
      · exact Or.inl h
      · exact Or.inr (List.mem_cons_of_mem _ h)
    · have hb : (k' == k) = false := by simpa using hk
      rw [assocSet_cons_ne k' v' tl k v hb] at h
      rcases List.mem_cons.mp h with h | h
      · exact Or.inr (by simp [h])
      · rcases ih h with h' | h'
        · exact Or.inl h'
        · exact Or.inr (List.mem_cons_of_mem _ h')

/-- Helper: a successful object read returns the value of some member. -/
theorem assocGet_mem {α : Type} {l : List (String × α)} {k : String} {v : α}
    (h : assocGet l k = some v) : ∃ k', (k', v) ∈ l := by
  simp only [assocGet, Option.map_eq_some'] at h
  obtain ⟨p, hp, hv⟩ := h
  subst hv
  exact ⟨p.1, by simpa using List.mem_of_find?_eq_some hp⟩

/-- Helper: the update step preserves the count invariant. -/
theorem updateMetadata_inv (env : ScanEnv) (m : Metadata) (fp : String) (c : Candidate)
    (h : m.totalOccurences = sumSnd m.filewiseOccurences) :
    (updateMetadata env m fp c).totalOccurences =
      sumSnd (updateMetadata env m fp c).filewiseOccurences := by
  simp [updateMetadata, sumSnd_assocSet_incr, h]

/-- Helper: a fresh record satisfies the count invariant. -/
theorem freshMetadata_inv (env : ScanEnv) (c : Candidate) (e : CatalogEntry) :
    (freshMetadata env c e).totalOccurences =
      sumSnd (freshMetadata env c e).filewiseOccurences := by
  simp [freshMetadata, sumSnd]

/-- Helper: the record an update starts from satisfies the invariant
whenever every stored record does. -/
theorem resolvedBase_inv (env : ScanEnv) (store : DictStore) (c : Candidate)
    (e : CatalogEntry)
    (h : ∀ k m, (k, m) ∈ store → m.totalOccurences = sumSnd m.filewiseOccurences) :
    (resolvedBase env store c e).totalOccurences =
      sumSnd (resolvedBase env store c e).filewiseOccurences := by
  unfold resolvedBase
  cases hg : assocGet store (metadataKey e.moduleName c.name c.kind) with
  | none => exact freshMetadata_inv env c e
  | some m =>
    obtain ⟨k', hk'⟩ := assocGet_mem hg
    exact h k' m hk'

/-- Helper: one legacy aggregator step preserves the store-wide count
invariant. -/
theorem extractMetadataDict_inv (env : ScanEnv) (store : DictStore) (c : Candidate)
    (e : CatalogEntry) (fp : String)
    (h : ∀ k m, (k, m) ∈ store → m.totalOccurences = sumSnd m.filewiseOccurences) :
    ∀ k m, (k, m) ∈ (extractMetadataDict env store c e fp).1 →
      m.totalOccurences = sumSnd m.filewiseOccurences := by
  intro k m hm
  simp only [extractMetadataDict] at hm
  rcases mem_assocSet hm with h' | h'
  · have hm2 : m = updateMetadata env (resolvedBase env store c e) fp c := by
      simpa using congrArg Prod.snd h'
    rw [hm2]
    exact updateMetadata_inv env _ fp c (resolvedBase_inv env store c e h)
  · exact h k m h'

/-- Helper: one current-aggregator (array-store) step preserves the
invariant for every stored record. -/
theorem extractMetadataArr_inv (env : ScanEnv) (store : JsArray Metadata) (c : Candidate)
    (e : CatalogEntry) (fp : String)
    (h : ∀ m ∈ store.elems, m.totalOccurences = sumSnd m.filewiseOccurences) :
    ∀ m ∈ (extractMetadataArr env store c e fp).1.elems,
      m.totalOccurences = sumSnd m.filewiseOccurences := by
  intro m hm
  simp only [extractMetadataArr, jsArrayPush, List.mem_append, List.mem_singleton] at hm
  rcases hm with hm | hm
  · exact h m hm
  · subst hm
    refine updateMetadata_inv env _ fp c ?_
    cases hg : jsArrayGetStr store (metadataKey e.moduleName c.name c.kind) with
    | none => simpa [hg] using freshMetadata_inv env c e
    | some m0 =>
      have hmem : m0 ∈ store.elems := by
        simp only [jsArrayGetStr] at hg
        cases hc : canonicalIndex (metadataKey e.moduleName c.name c.kind) with
        | none => simp [hc] at hg
        | some n =>
          rw [hc] at hg
          exact List.get?_mem hg
      simpa [hg] using h m0 hmem

/-- Helper: the invariant holds for every record reachable by a legacy run
from an invariant-respecting store. -/
theorem runDict_inv_from (env : ScanEnv) (evs : List ResolveEvent) :
    ∀ st : DictStore,
      (∀ k m, (k, m) ∈ st → m.totalOccurences = sumSnd m.filewiseOccurences) →
      ∀ k m, (k, m) ∈ evs.foldl
          (fun st ev => (extractMetadataDict env st ev.cand ev.entry ev.filePath).1) st →
        m.totalOccurences = sumSnd m.filewiseOccurences := by
  induction evs with
  | nil => intro st h; simpa using h
  | cons ev rest ih =>
    intro st h
    exact ih _ (extractMetadataDict_inv env st ev.cand ev.entry ev.filePath h)

/-- Helper: the invariant holds for every record reachable by a current
(array-store) run from an invariant-respecting store. -/
theorem runArr_inv_from (env : ScanEnv) (evs : List ResolveEvent) :
    ∀ st : JsArray Metadata,
      (∀ m ∈ st.elems, m.totalOccurences = sumSnd m.filewiseOccurences) →
      ∀ m ∈ (evs.foldl
          (fun st ev => (extractMetadataArr env st ev.cand ev.entry ev.filePath).1) st).elems,
        m.totalOccurences = sumSnd m.filewiseOccurences := by
  induction evs with
  | nil => intro st h; simpa using h
  | cons ev rest ih =>
    intro st h
    exact ih _ (extractMetadataArr_inv env st ev.cand ev.entry ev.filePath h)

/-- C6: after every aggregator operation, in both the legacy dictionary
store and the current array store, every stored record's `totalOccurences`
equals the sum of its `filewiseOccurences` values (the two counters are
incremented together and never decremented). -/
theorem c6_total_is_sum_of_filewise (env : ScanEnv) (evs : List ResolveEvent) :
    (∀ k m, (k, m) ∈ runDict env evs →
      m.totalOccurences = sumSnd m.filewiseOccurences) ∧
    (∀ m ∈ (runArr env evs).elems,
      m.totalOccurences = sumSnd m.filewiseOccurences) := by
  constructor
  · exact runDict_inv_from env evs [] (by simp)
  · exact runArr_inv_from env evs ⟨[]⟩ (by simp)

/-- Witness for C6 on a one-event run: the stored record has
`totalOccurences` 1 and filewise counts summing to 1. -/
theorem c6_total_is_sum_of_filewise_witness :
    (("A/f/expr.call",
        ({ id := "A/f/expr.call", name := "f", tags := [], overriddenComponents := [],
           designSystems := [], designDocs := none, isSelfDeclared := true,
           filewiseOccurences := [("/a.swift", 1)], totalOccurences := 1, stories := [],
           filewiseLocation := [("/a.swift", [⟨1, 1, 0⟩])], type := "expr.call",
           libraryName := "A", thirdParty := false } : Metadata)) ∈
      runDict ⟨[], [], fun _ => "f()\n"⟩
        [⟨⟨"f", "source.lang.swift.expr.call", 0⟩,
          ⟨"f", "source.lang.swift.decl.function.free", "A", none⟩, "/a.swift"⟩]) ∧
    ({ id := "A/f/expr.call", name := "f", tags := [], overriddenComponents := [],
       designSystems := [], designDocs := none, isSelfDeclared := true,
       filewiseOccurences := [("/a.swift", 1)], totalOccurences := 1, stories := [],
       filewiseLocation := [("/a.swift", [⟨1, 1, 0⟩])], type := "expr.call",
       libraryName := "A", thirdParty := false } : Metadata).totalOccurences =
      sumSnd [("/a.swift", 1)] := by
  refine ⟨by decide, ?_⟩
  exact (c6_total_is_sum_of_filewise ⟨[], [], fun _ => "f()\n"⟩
    [⟨⟨"f", "source.lang.swift.expr.call", 0⟩,
      ⟨"f", "source.lang.swift.decl.function.free", "A", none⟩, "/a.swift"⟩]).1
    "A/f/expr.call" _ (by decide)

end SwiftExtracter

namespace SwiftExtracter

/-- C8 counterexample: with the single known module path `AppSources/Lib`,
the scan path `Sources` neither lies under nor contains that module path,
yet `validPath` accepts it (it is a substring of `AppSources/Lib`), the
branch is not aborted, and a contained Swift file is dispatched — one
metadata-mutating scan instead of the claimed zero. -/
theorem c8_substring_path_not_rejected :
    ([(⟨"Lib", "AppSources/Lib", "AppSources/Lib/main.swift", false⟩ : Module)].all
      (fun m => !(specUnderOrContains "Sources" m.path))) = true ∧
    scanEntry [⟨"Lib", "AppSources/Lib", "AppSources/Lib/main.swift", false⟩] []
        "Sources" (.dir "Sources" [.file "X.swift"]) =
      ⟨["Sources/X.swift"], []⟩ := by
  exact ⟨by decide, by decide⟩

/-- Helper for C8: the scanned files of the CLI loop are the concatenation
of the scanned files of each root, walked independently. -/
theorem scanRoots_scanned (mods : List Module) (excluded : List String)
    (roots : List (String × FsEntry)) :
    (scanRoots mods excluded roots).scanned =
      (roots.map (fun r => (scanEntry mods excluded r.1 r.2).scanned)).flatten := by
  suffices h : ∀ (roots : List (String × FsEntry)) (acc : WalkResult),
      (roots.foldl (fun a r => combineWalk a (scanEntry mods excluded r.1 r.2)) acc).scanned =
        acc.scanned ++ (roots.map (fun r => (scanEntry mods excluded r.1 r.2).scanned)).flatten from
    by simpa using h roots ⟨[], []⟩
  intro roots
  induction roots with
  | nil => intro acc; simp
  | cons r rest ih =>
    intro acc
    rw [List.foldl_cons, ih]
    simp [combineWalk, List.append_assoc]

/-- C8 (amended): a directory branch is aborted — reporting the known
module paths and dispatching no file below it — exactly when the scanned
path is not a substring of any known module path (so a path that merely
lies under a module path is rejected too, and with an empty module list
every directory scan is rejected); each root passed in the same invocation
is walked independently, so a sibling valid root is still scanned to
completion. -/
theorem c8_walker_validation :
    (∀ (mods : List Module) (excluded : List String) (p nm : String)
        (children : List FsEntry),
      validPath mods p = false →
        scanEntry mods excluded p (.dir nm children) =
          ⟨[], [(p, mods.map (fun m => m.path))]⟩) ∧
    (∀ (mods : List Module) (p : String),
      validPath mods p = true ↔ ∃ m ∈ mods, strContains m.path p = true) ∧
    (∀ (excluded : List String) (p nm : String) (children : List FsEntry),
      scanEntry [] excluded p (.dir nm children) = ⟨[], [(p, [])]⟩) ∧
    (∀ (mods : List Module) (excluded : List String) (roots : List (String × FsEntry)),
      (scanRoots mods excluded roots).scanned =
        (roots.map (fun r => (scanEntry mods excluded r.1 r.2).scanned)).flatten) := by
  have habort : ∀ (mods : List Module) (excluded : List String) (p nm : String)
      (children : List FsEntry),
      validPath mods p = false →
        scanEntry mods excluded p (.dir nm children) =
          ⟨[], [(p, mods.map (fun m => m.path))]⟩ := by
    intro mods excluded p nm children h
    simp [scanEntry, h]
  refine ⟨habort, ?_, ?_, scanRoots_scanned⟩
  · intro mods p
    simp [validPath, List.any_eq_true]
  · intro excluded p nm children
    have h0 : validPath [] p = false := by simp [validPath]
    simpa using habort [] excluded p nm children h0

/-- Witness for C8 at an empty module list and a concrete directory. -/
theorem c8_walker_validation_witness :
    validPath [] "q" = false ∧
    scanEntry [] [] "q" (.dir "d" [.file "a.swift"]) = ⟨[], [("q", [])]⟩ := by
  refine ⟨by decide, ?_⟩
  simpa using c8_walker_validation.1 [] [] "q" "d" [.file "a.swift"] (by decide)

end SwiftExtracter

namespace SwiftExtracter

/-- Helper: `lastIndexOf` returns `-1` when the character is absent. -/
theorem lastIdx_of_not_mem (l : List Char) (t : Char) (h : t ∉ l) :
    lastIdxOfChars l t = -1 := by
  induction l with
  | nil => rfl
  | cons c cs ih =>
    have hct : (c == t) = false :=
      beq_eq_false_iff_ne.mpr (fun hc => h (hc ▸ List.mem_cons_self c cs))
    have hmem : t ∉ cs := fun hm => h (List.mem_cons_of_mem _ hm)
    simp [lastIdxOfChars, ih hmem, hct]

/-- Helper: `lastIndexOf` finds the final occurrence when the tail after it
is free of the character. -/
theorem lastIdx_concat (l d : List Char) (t : Char) (hd : t ∉ d) :
    lastIdxOfChars (l ++ t :: d) t = (l.length : Int) := by
  induction l with
  | nil => simp [lastIdxOfChars, lastIdx_of_not_mem d t hd]
  | cons c cs ih =>
    simp [lastIdxOfChars, ih]

/-- Helper: for in-range ordered indices, JS `substring` is take-then-drop. -/
theorem jsSubstring_eq_of_le (s : String) (a b : Int) (h0 : 0 ≤ a) (h1 : a ≤ b)
    (h2 : b ≤ (s.data.length : Int)) :
    jsSubstring s a b = ⟨(s.data.take b.toNat).drop a.toNat⟩ := by
  simp only [jsSubstring]
  have e1 : min (max a 0) (s.data.length : Int) = a := by omega
  have e2 : min (max b 0) (s.data.length : Int) = b := by omega
  rw [e1, e2]
  have e3 : min a b = a := by omega
  have e4 : max a b = b := by omega
  rw [e3, e4]

/-- Helper: on a well-shaped key `C.<module>-<disambiguator>` the pushed
module name is exactly the `<module>` part. -/
theorem moduleOfEntry_name (e : ManifestEntry) (nm d : String)
    (hk : e.key = "C." ++ nm ++ "-" ++ d) (hd : '-' ∉ d.data) :
    (moduleOfEntry e).name = nm := by
  have hdata : e.key.data = ('C' :: '.' :: nm.data) ++ '-' :: d.data := by
    rw [hk]
    simp [String.data_append]
  have hlast : jsLastIndexOf e.key '-' = ((2 + nm.data.length : Nat) : Int) := by
    unfold jsLastIndexOf
    rw [hdata, lastIdx_concat _ _ _ hd]
    simp
    omega
  have hlen : 2 + nm.data.length ≤ e.key.data.length := by
    rw [hdata]
    simp
    omega
  have hname : (moduleOfEntry e).name = jsSubstring e.key 2 (jsLastIndexOf e.key '-') := rfl
  rw [hname, hlast,
    jsSubstring_eq_of_le e.key 2 ((2 + nm.data.length : Nat) : Int) (by omega) (by omega)
      (by omega)]
  have hto : ((2 + nm.data.length : Nat) : Int).toNat = 2 + nm.data.length :=
    Int.toNat_natCast _
  rw [hto]
  have htake : e.key.data.take (2 + nm.data.length) = 'C' :: '.' :: nm.data := by
    rw [hdata]
    have hl : ('C' :: '.' :: nm.data).length = 2 + nm.data.length := by
      simp
      omega
    rw [← hl, List.take_left]
  rw [htake]
  rfl

/-- C7: for a well-formed manifest the resolved topology holds exactly the
modules of the kept `C.`-prefixed targets — those whose first input is in
the dependency-checkout area or outside the build area — with the module
name obtained by stripping the leading `C.` and the trailing `-`
disambiguator, and `isThirdParty` true iff the first input is in the
dependency-checkout area. -/
theorem c7_module_topology (commands : List ManifestEntry) (mods : List Module)
    (hwf : wellFormedManifest commands) (hres : getDebugYaml commands = some mods) :
    (∀ m ∈ mods, ∃ e ∈ commands,
        strStartsWith e.key "C." = true ∧
        (strContains (e.inputs.headD "") ".build/checkouts" = true ∨
          strContains (e.inputs.headD "") ".build" = false) ∧
        m = moduleOfEntry e) ∧
    (∀ e ∈ commands, strStartsWith e.key "C." = true →
      (strContains (e.inputs.headD "") ".build/checkouts" = true ∨
        strContains (e.inputs.headD "") ".build" = false) →
      moduleOfEntry e ∈ mods) ∧
    (∀ e ∈ commands, ∀ nm d : String,
      e.key = "C." ++ nm ++ "-" ++ d → '-' ∉ d.data → (moduleOfEntry e).name = nm) ∧
    (∀ e ∈ commands, ((moduleOfEntry e).isThirdParty = true ↔
      strContains (e.inputs.headD "") ".build/checkouts" = true)) := by
  have h1 : (commands.find? (fun e => e.key == "PackageStructure")).isNone = false := by
    obtain ⟨e, he, hk⟩ := hwf.1
    have hs : (commands.find? (fun e => e.key == "PackageStructure")).isSome = true :=
      List.find?_isSome.mpr ⟨e, he, by simp [hk]⟩
    obtain ⟨v, hv⟩ := Option.isSome_iff_exists.mp hs
    simp [hv]
  have h2 : ((commands.filter (fun e => strStartsWith e.key "C.")).any
      (fun e => e.inputs.isEmpty)) = false := by
    rw [List.any_eq_false]
    intro e he
    have hmem := List.mem_filter.mp he
    have hne := (hwf.2 e hmem.1 (by simpa using hmem.2)).1
    simp [List.isEmpty_iff, hne]
  have hmods : mods = ((commands.filter (fun e => strStartsWith e.key "C.")).filter
      keepEntry).map moduleOfEntry := by
    have h := hres
    simp only [getDebugYaml, h1, h2, Bool.false_eq_true, if_false] at h
    exact (Option.some.inj h).symm
  refine ⟨?_, ?_, ?_, ?_⟩
  · intro m hm
    rw [hmods] at hm
    obtain ⟨e, he, hme⟩ := List.mem_map.mp hm
    obtain ⟨he2, hkeep⟩ := List.mem_filter.mp he
    obtain ⟨he3, hcs⟩ := List.mem_filter.mp he2
    refine ⟨e, he3, by simpa using hcs, ?_, hme.symm⟩
    simpa [keepEntry, Bool.or_eq_true, Bool.not_eq_true'] using hkeep
  · intro e he hcs hkeep
    rw [hmods]
    refine List.mem_map.mpr ⟨e, ?_, rfl⟩
    refine List.mem_filter.mpr ⟨List.mem_filter.mpr ⟨he, by simpa using hcs⟩, ?_⟩
    simpa [keepEntry, Bool.or_eq_true, Bool.not_eq_true'] using hkeep
  · intro e _ nm d hk hd
    exact moduleOfEntry_name e nm d hk hd
  · intro e _
    simp [moduleOfEntry]

/-- Witness for C7 on a concrete manifest with a first-party target, a
checkout (third-party) target and an excluded intermediate target. -/
theorem c7_module_topology_witness :
    moduleOfEntry ⟨"C.App-debug.module", ["/proj/Sources/App/main.swift"]⟩ ∈
      ([⟨"App", "/proj/Sources/App", "/proj/Sources/App/main.swift", false⟩,
        ⟨"Lib", "/proj/.build/checkouts/Lib/Sources",
          "/proj/.build/checkouts/Lib/Sources/a.swift", true⟩] : List Module) := by
  have hwf : wellFormedManifest
      [⟨"PackageStructure", ["x"]⟩,
       ⟨"C.App-debug.module", ["/proj/Sources/App/main.swift"]⟩,
       ⟨"C.Lib-debug.module", ["/proj/.build/checkouts/Lib/Sources/a.swift"]⟩,
       ⟨"C.Gen-debug.module", ["/proj/.build/gen/a.swift"]⟩] := by
    constructor
    · exact ⟨⟨"PackageStructure", ["x"]⟩, by decide, rfl⟩
    · intro e he hs
      simp only [List.mem_cons, List.not_mem_nil, or_false] at he
      rcases he with rfl | rfl | rfl | rfl
      · exact absurd hs (by decide)
      · exact ⟨by decide, "App", "debug.module", by decide, by decide⟩
      · exact ⟨by decide, "Lib", "debug.module", by decide, by decide⟩
      · exact ⟨by decide, "Gen", "debug.module", by decide, by decide⟩
  exact (c7_module_topology _ _ hwf (by decide)).2.1
    ⟨"C.App-debug.module", ["/proj/Sources/App/main.swift"]⟩ (by decide) (by decide)
    (Or.inr (by decide))

end SwiftExtracter
